import Mathlib

/-!
Verification development for the abstract-string-domain core of the
`cwe_checker` repository: the bricks domain with its normalization
procedure, the character-inclusion domain, the string-length domain and
the generic per-program-point state.

Rust `BTreeSet<T>` values are embedded as strictly sorted lists (the
iteration order of a `BTreeSet` is the sorted order, which the
permutation generator observes through `new_gen.get(0)`), bundled with
their sortedness invariant.  `u32`/`usize` quantities are embedded as
`Nat`.  Functions that can panic or recurse without bound in the source
(`unwrap` on `Top`, `generate_permutations_of_fixed_length`, the
normalization `while` loop) are embedded with `Option` results and,
where needed, an explicit fuel argument counting loop iterations.
-/

namespace CweChecker

section OrderedSet

variable {α : Type} [LinearOrder α]

/-- Insertion into a strictly sorted list, keeping it sorted and
duplicate-free: the embedding of `BTreeSet::insert`. -/
def oinsert (x : α) : List α → List α
  | [] => [x]
  | y :: ys =>
    if x < y then x :: y :: ys
    else if x = y then y :: ys
    else y :: oinsert x ys

theorem mem_oinsert (a x : α) : ∀ l : List α, a ∈ oinsert x l ↔ a = x ∨ a ∈ l := by
  intro l
  induction l with
  | nil => simp [oinsert]
  | cons y ys ih =>
    by_cases h1 : x < y
    · simp [oinsert, h1]
    · by_cases h2 : x = y
      · subst h2
        have hx : oinsert x (x :: ys) = x :: ys := by
          unfold oinsert
          rw [if_neg h1, if_pos rfl]
        rw [hx, List.mem_cons]
        tauto
      · simp [oinsert, h1, h2, ih]
        tauto

theorem sorted_oinsert (x : α) :
    ∀ l : List α, l.Sorted (· < ·) → (oinsert x l).Sorted (· < ·) := by
  intro l
  induction l with
  | nil => intro _; simp [oinsert]
  | cons y ys ih =>
    intro hs
    rw [List.sorted_cons] at hs
    obtain ⟨hy, hys⟩ := hs
    by_cases h1 : x < y
    · simp only [oinsert, if_pos h1]
      rw [List.sorted_cons]
      refine ⟨?_, ?_⟩
      · intro b hb
        rcases List.mem_cons.mp hb with hb | hb
        · exact hb ▸ h1
        · exact lt_trans h1 (hy b hb)
      · rw [List.sorted_cons]; exact ⟨hy, hys⟩
    · by_cases h2 : x = y
      · simp only [oinsert, if_neg h1, if_pos h2]
        rw [List.sorted_cons]; exact ⟨hy, hys⟩
      · simp only [oinsert, if_neg h1, if_neg h2]
        rw [List.sorted_cons]
        refine ⟨?_, ih hys⟩
        intro b hb
        rcases (mem_oinsert b x ys).mp hb with hb | hb
        · subst hb
          exact lt_of_le_of_ne (not_lt.mp h1) (Ne.symm h2)
        · exact hy b hb

/-- Canonicalize a list into the sorted duplicate-free list holding the
same elements: the embedding of `collect::<BTreeSet<_>>()`. -/
def oset (l : List α) : List α := l.foldr oinsert []

theorem sorted_oset (l : List α) : (oset l).Sorted (· < ·) := by
  induction l with
  | nil => simp [oset]
  | cons x xs ih => exact sorted_oinsert x _ ih

theorem mem_oset (a : α) (l : List α) : a ∈ oset l ↔ a ∈ l := by
  induction l with
  | nil => simp [oset]
  | cons x xs ih =>
    show a ∈ oinsert x (oset xs) ↔ _
    rw [mem_oinsert]
    simp [ih]

/-- Two strictly sorted lists with the same members are equal. -/
theorem sorted_eq_of_mem_iff {l₁ l₂ : List α} (h₁ : l₁.Sorted (· < ·))
    (h₂ : l₂.Sorted (· < ·)) (h : ∀ a, a ∈ l₁ ↔ a ∈ l₂) : l₁ = l₂ := by
  haveI : IsAntisymm α (· < ·) :=
    ⟨fun a b hab hba => absurd hba (lt_asymm hab)⟩
  haveI : IsIrrefl α (· < ·) := ⟨fun a => lt_irrefl a⟩
  exact List.eq_of_perm_of_sorted
    ((List.perm_ext_iff_of_nodup h₁.nodup h₂.nodup).mpr h) h₁ h₂

/-- An ordered set: a strictly sorted list bundled with its invariant.
This is the embedding of Rust's `BTreeSet`. -/
def OSet (α : Type) [LinearOrder α] : Type := { l : List α // l.Sorted (· < ·) }

instance : DecidableEq (OSet α) := fun a b =>
  decidable_of_iff (a.val = b.val) Subtype.ext_iff.symm

/-- Build an ordered set from any list of elements. -/
def OSet.ofList (l : List α) : OSet α := ⟨oset l, sorted_oset l⟩

/-- The union of two ordered sets (`BTreeSet::union().collect()`). -/
def OSet.union (a b : OSet α) : OSet α :=
  ⟨a.val.foldr oinsert b.val, by
    induction a.val with
    | nil => exact b.property
    | cons x xs ih => exact sorted_oinsert x _ ih⟩

/-- The intersection of two ordered sets
(`HashSet::intersection().collect()`). -/
def OSet.inter (a b : OSet α) : OSet α :=
  ⟨a.val.filter (fun x => decide (x ∈ b.val)), by
    exact List.Pairwise.sublist (List.filter_sublist a.val) a.property⟩

theorem OSet.mem_union (x : α) (a b : OSet α) :
    x ∈ (a.union b).val ↔ x ∈ a.val ∨ x ∈ b.val := by
  show x ∈ a.val.foldr oinsert b.val ↔ _
  induction a.val with
  | nil => simp
  | cons y ys ih =>
    show x ∈ oinsert y (ys.foldr oinsert b.val) ↔ _
    rw [mem_oinsert]
    simp [ih]
    tauto

theorem OSet.mem_inter (x : α) (a b : OSet α) :
    x ∈ (a.inter b).val ↔ x ∈ a.val ∧ x ∈ b.val := by
  show x ∈ a.val.filter _ ↔ _
  simp [List.mem_filter]

theorem OSet.eq_of_mem_iff {a b : OSet α} (h : ∀ x, x ∈ a.val ↔ x ∈ b.val) :
    a = b :=
  Subtype.ext (sorted_eq_of_mem_iff a.property b.property h)

theorem OSet.union_comm (a b : OSet α) : a.union b = b.union a :=
  OSet.eq_of_mem_iff (fun x => by rw [mem_union, mem_union]; tauto)

theorem OSet.union_self (a : OSet α) : a.union a = a :=
  OSet.eq_of_mem_iff (fun x => by rw [mem_union]; tauto)

theorem OSet.inter_comm (a b : OSet α) : a.inter b = b.inter a :=
  OSet.eq_of_mem_iff (fun x => by rw [mem_inter, mem_inter]; tauto)

theorem OSet.inter_self (a : OSet α) : a.inter a = a :=
  OSet.eq_of_mem_iff (fun x => by rw [mem_inter]; tauto)

end OrderedSet

/-- A Rust `String`, embedded as its list of characters (lexicographic
comparison on the characters coincides with Rust's byte-wise `Ord` on
UTF-8 strings, and `.length` embeds `len()`). -/
abbrev Str : Type := List Char

/-- The string-set component of a brick: a `BTreeSet<String>`. -/
abbrev SSet : Type := OSet Str

/-- A single brick: a set of strings together with the minimum and
maximum of the sum of their occurrences (`struct Brick`). -/
structure Brick where
  sequence : SSet
  min : Nat
  max : Nat
deriving DecidableEq

/-- `BrickDomain = Top | Value(Brick)`. -/
inductive BrickDomain where
  | Top : BrickDomain
  | Value : Brick → BrickDomain
deriving DecidableEq

/-- `BricksDomain = Top | Value(Vec<BrickDomain>)`. -/
inductive BricksDomain where
  | Top : BricksDomain
  | Value : List BrickDomain → BricksDomain
deriving DecidableEq

namespace Brick

/-- `Brick::is_empty_string`: the brick has an empty candidate set and
`min = max = 0`. -/
def isEmptyString (b : Brick) : Bool :=
  b.sequence.val.isEmpty && b.min == 0 && b.max == 0

/-- `Brick::merge_bricks_with_bound_one`: cartesian-product
concatenation of the two candidate sets, with bounds `1,1`. -/
def mergeBricksWithBoundOne (b other : Brick) : Brick :=
  { sequence :=
      OSet.ofList
        (b.sequence.val.flatMap fun s1 => other.sequence.val.map fun s2 => s1 ++ s2)
    min := 1
    max := 1 }

/-- `Brick::merge_bricks_with_equal_content`: keep the candidate set and
add the bounds. -/
def mergeBricksWithEqualContent (b other : Brick) : Brick :=
  { sequence := b.sequence, min := b.min + other.min, max := b.max + other.max }

/-- `Brick::generate_permutations_of_fixed_length`, with an explicit
fuel bounding the recursion depth (the source recursion is unbounded:
it goes on while the byte length of the first generated string is below
`length`).  Each round appends one candidate string to every string
generated so far; `new_gen.get(0).unwrap()` panics (`none`) on an empty
candidate set. -/
def generatePermutationsOfFixedLength :
    Nat → Nat → List Str → List Str → Option (List Str)
  | 0, _, _, _ => none
  | fuel + 1, length, sequence, generated =>
    let new_gen : List Str :=
      if generated.isEmpty then sequence
      else sequence.flatMap fun s => generated.map fun g => g ++ s
    match new_gen.head? with
    | none => none
    | some first =>
      if first.length < length then
        generatePermutationsOfFixedLength fuel length sequence new_gen
      else
        some new_gen

/-- `Brick::transform_brick_with_min_max_equal`: collect the generated
permutations into a set and reset the bounds to `1,1`. -/
def transformBrickWithMinMaxEqual (b : Brick) (gfuel length : Nat) : Option Brick :=
  (generatePermutationsOfFixedLength gfuel length b.sequence.val []).map fun l =>
    { sequence := OSet.ofList l, min := 1, max := 1 }

/-- `Brick::break_single_brick_into_simpler_bricks`:
`[S]^{min,max} => ([S^min]^{1,1}, [S]^{0,max-min})`. -/
def breakSingleBrickIntoSimplerBricks (b : Brick) (gfuel : Nat) :
    Option (Brick × Brick) :=
  (b.transformBrickWithMinMaxEqual gfuel b.min).map fun brick_1 =>
    (brick_1, { sequence := b.sequence, min := 0, max := b.max - b.min })

end Brick

namespace BrickDomain

/-- `BrickDomain::is_top`. -/
def isTop : BrickDomain → Bool
  | .Top => true
  | .Value _ => false

/-- `BrickDomain::get_empty_brick`: an empty string brick. -/
def getEmptyBrick : BrickDomain :=
  .Value { sequence := ⟨[], List.sorted_nil⟩, min := 0, max := 0 }

/-- `BrickDomain::unwrap_value`, `none` embedding the panic on `Top`. -/
def unwrapValue : BrickDomain → Option Brick
  | .Top => none
  | .Value b => some b

/-- `<BrickDomain as AbstractDomain>::merge`: union of the candidate
sets, minimum of the `min`s and maximum of the `max`s; `Top` if either
side is `Top`. -/
def merge : BrickDomain → BrickDomain → BrickDomain
  | .Top, _ => .Top
  | _, .Top => .Top
  | .Value b, .Value other =>
    .Value
      { sequence := b.sequence.union other.sequence
        min := Nat.min b.min other.min
        max := Nat.max b.max other.max }

end BrickDomain

namespace BricksDomain

/-- `BricksDomain::is_top`. -/
def isTop : BricksDomain → Bool
  | .Top => true
  | .Value _ => false

/-- One full pass of the `for (index, brick_domain) in lookup.iter().enumerate()`
loop inside `BricksDomain::normalize`: walk the list from `index` on and
apply the first applicable rule (checked in source order 1, 3, 5, 2, 4)
to `orig`, stopping at the first application (`break`).  `some orig`
unchanged means no rule applied during the whole scan; `none` embeds a
panic or exhaustion of the permutation-generator fuel. -/
def scanStep (gfuel : Nat) (orig : List BrickDomain) :
    Nat → List BrickDomain → Option (List BrickDomain)
  | _, [] => some orig
  | index, bd :: rest =>
    match bd with
    | .Top => scanStep gfuel orig (index + 1) rest
    | .Value current_brick =>
      if current_brick.isEmptyString then
        some (orig.eraseIdx index)
      else if current_brick.min = current_brick.max ∧ current_brick.min > 1 then
        (current_brick.transformBrickWithMinMaxEqual gfuel current_brick.min).map
          fun b => orig.set index (.Value b)
      else if current_brick.min ≥ 1 ∧ current_brick.max > current_brick.min then
        (current_brick.breakSingleBrickIntoSimplerBricks gfuel).map
          fun p => (orig.set index (.Value p.1)).insertIdx (index + 1) (.Value p.2)
      else
        match rest with
        | .Value next_brick :: _ =>
          if current_brick.min = 1 ∧ current_brick.max = 1 ∧
              next_brick.min = 1 ∧ next_brick.max = 1 then
            some ((orig.set index
              (.Value (current_brick.mergeBricksWithBoundOne next_brick))).eraseIdx (index + 1))
          else if current_brick.sequence = next_brick.sequence then
            some ((orig.set index
              (.Value (current_brick.mergeBricksWithEqualContent next_brick))).eraseIdx (index + 1))
          else
            scanStep gfuel orig (index + 1) rest
        | _ => scanStep gfuel orig (index + 1) rest

/-- The `while !unchanged` loop of `BricksDomain::normalize` on the
unwrapped brick list, with `wfuel` bounding the number of loop
iterations (the source loop is unbounded) and `gfuel` the fuel of each
permutation-generator call. -/
def normalizeList (wfuel gfuel : Nat) (l : List BrickDomain) :
    Option (List BrickDomain) :=
  match wfuel with
  | 0 => none
  | w + 1 =>
    match scanStep gfuel l 0 l with
    | none => none
    | some l' => if l' = l then some l else normalizeList w gfuel l'

/-- `BricksDomain::normalize` (panics on `Top` through `unwrap_value`). -/
def normalize (wfuel gfuel : Nat) : BricksDomain → Option BricksDomain
  | .Top => none
  | .Value l => (normalizeList wfuel gfuel l).map .Value

/-- The `for i in 0..long_list.len()` loop of `BricksDomain::pad_list`:
`len_diff` is the length difference, `added` the number of empty bricks
inserted so far; `none` embeds the `unwrap` panics. -/
def padLoop (len_diff : Nat) :
    List BrickDomain → List BrickDomain → Nat → Option (List BrickDomain)
  | [], _, _ => some []
  | long_hd :: long_tl, short_list, added =>
    if added ≥ len_diff then
      match short_list with
      | [] => none
      | s :: ss => (padLoop len_diff long_tl ss added).map (s :: ·)
    else
      match short_list with
      | [] =>
        (padLoop len_diff long_tl [] (added + 1)).map (BrickDomain.getEmptyBrick :: ·)
      | s :: ss =>
        match s.unwrapValue, long_hd.unwrapValue with
        | some sb, some lb =>
          if sb ≠ lb then
            (padLoop len_diff long_tl (s :: ss) (added + 1)).map
              (BrickDomain.getEmptyBrick :: ·)
          else
            (padLoop len_diff long_tl ss added).map (s :: ·)
        | _, _ => none

/-- `BricksDomain::pad_list` on the unwrapped lists (`self` is the
shorter list).  The `usize` subtraction `long - short` panics on
underflow, embedded by the length guard. -/
def padList (short_list long_list : List BrickDomain) : Option (List BrickDomain) :=
  if short_list.length ≤ long_list.length then
    padLoop (long_list.length - short_list.length) long_list short_list 0
  else
    none

/-- `<BricksDomain as AbstractDomain>::merge`: `Top` absorbs; otherwise
the shorter list is padded and the lists are merged element-wise. -/
def merge : BricksDomain → BricksDomain → Option BricksDomain
  | .Top, _ => some .Top
  | _, .Top => some .Top
  | .Value self_list, .Value other_list =>
    if self_list.length < other_list.length then
      (padList self_list other_list).map fun padded =>
        .Value (List.zipWith BrickDomain.merge padded other_list)
    else if other_list.length < self_list.length then
      (padList other_list self_list).map fun padded =>
        .Value (List.zipWith BrickDomain.merge self_list padded)
    else
      some (.Value (List.zipWith BrickDomain.merge self_list other_list))

end BricksDomain

/-- The character-set component of the character-inclusion domain (a
Rust `HashSet<char>`, embedded as an ordered set since only its set
semantics matter). -/
abbrev CSet : Type := OSet Char

/-- `CharacterInclusionDomain = Top | Value((HashSet<char>, HashSet<char>))`:
a pair of the certainly and the possibly contained characters. -/
inductive CharacterInclusionDomain where
  | Top : CharacterInclusionDomain
  | Value : CSet × CSet → CharacterInclusionDomain
deriving DecidableEq

namespace CharacterInclusionDomain

/-- `CharacterInclusionDomain::is_top`. -/
def isTop : CharacterInclusionDomain → Bool
  | .Top => true
  | .Value _ => false

/-- `<CharacterInclusionDomain as AbstractDomain>::merge`: intersection
of the certain sets, union of the possible sets, `Top` absorbing. -/
def merge : CharacterInclusionDomain → CharacterInclusionDomain → CharacterInclusionDomain
  | .Top, _ => .Top
  | _, .Top => .Top
  | .Value (self_certain, self_possible), .Value (other_certain, other_possible) =>
    .Value (self_certain.inter other_certain, self_possible.union other_possible)

/-- The `ci` helper of the character-inclusion tests: both components
are the set of characters of the concrete string. -/
def ci (concrete : Str) : CharacterInclusionDomain :=
  .Value (OSet.ofList concrete, OSet.ofList concrete)

end CharacterInclusionDomain

/-- A `ByteSize` (a `u64` wrapper in the source). -/
abbrev ByteSize : Type := Nat

/-- `StringLengthDomain = Top(ByteSize) | Value((ByteSize, ByteSize))`.
The source file has two syntactic slips (a two-argument constructor call
for the one-tuple-field `Value` variant, and a `use BitvectorDomain::*`
shadowing the variant names in `bytesize`); the embedding follows the
evident intended semantics of the surrounding code and doc comments. -/
inductive StringLengthDomain where
  | Top : ByteSize → StringLengthDomain
  | Value : ByteSize × ByteSize → StringLengthDomain
deriving DecidableEq

namespace StringLengthDomain

/-- `StringLengthDomain::is_top`. -/
def isTop : StringLengthDomain → Bool
  | .Top _ => true
  | .Value _ => false

/-- `<StringLengthDomain as HasByteSize>::bytesize`: the carried width
for `Top`, the upper bound for `Value`. -/
def bytesize : StringLengthDomain → ByteSize
  | .Top b => b
  | .Value bounds => bounds.2

/-- `<StringLengthDomain as HasTop>::top`: a `Top` carrying `self`'s
byte size. -/
def top (s : StringLengthDomain) : StringLengthDomain :=
  .Top s.bytesize

/-- `<StringLengthDomain as AbstractDomain>::merge`: equal values pass
through, `Top` absorbs (as `self.top()` resp. `other.top()`), otherwise
the interval hull. -/
def merge (s other : StringLengthDomain) : StringLengthDomain :=
  match s with
  | .Value bounds =>
    match other with
    | .Value other_bounds =>
      if bounds = other_bounds then s
      else .Value (Nat.min bounds.1 other_bounds.1, Nat.max bounds.2 other_bounds.2)
    | .Top _ => other.top
  | .Top _ => s.top

end StringLengthDomain

/-- Lookup in an association list: the embedding of `BTreeMap::get`. -/
def alookup {K T : Type} [DecidableEq K] (k : K) : List (K × T) → Option T
  | [] => none
  | (k1, v) :: rest => if k1 = k then some v else alookup k rest

/-- Modelled from the spec: the body of `State::merge` is `todo!()` in
the source, so the per-map merge is taken from spec §4.5: the result
contains a key only if it is present in both inputs, mapped to
`T::merge` of the two entries; keys present in only one input are
dropped. -/
def mergeMaps {K T : Type} [DecidableEq K] (m : T → T → T)
    (a b : List (K × T)) : List (K × T) :=
  a.filterMap fun p => (alookup p.1 b).map fun w => (p.1, m p.2 w)

/-- A register variable identifier (opaque to this analysis). -/
abbrev Variable : Type := String

/-- `State<T>`: a map from register variables to domain values and a
map from pointer-plus-offset pairs to domain values, embedded as
association lists (`BTreeMap`). -/
structure State (T : Type) where
  register : List (Variable × T)
  pointer : List ((Variable × Int) × T)

/-- Modelled from the spec: `State::merge` (`todo!()` in the source)
merges the two maps of the two states key-wise with `T::merge`, keeping
only keys present in both states. -/
def State.merge {T : Type} (m : T → T → T) (s1 s2 : State T) : State T :=
  { register := mergeMaps m s1.register s2.register
    pointer := mergeMaps m s1.pointer s2.pointer }

/-- Subset relation on ordered sets. -/
def OSet.Subset {α : Type} [LinearOrder α] (a b : OSet α) : Prop :=
  ∀ x ∈ a.val, x ∈ b.val

/-- All concatenations of exactly `k` elements drawn with repetition
from the list `s`, in some order. -/
def kSeqs : Nat → List Str → List Str
  | 0, _ => [[]]
  | k + 1, s => (kSeqs k s).flatMap fun pre => s.map fun e => pre ++ e

/-- The set of all strings formed by concatenating exactly `k` elements
drawn (with repetition, in any order) from `s`: the candidate set that
the rule-3 flattening is specified to produce. -/
def kElementConcats (k : Nat) (s : SSet) : SSet :=
  OSet.ofList (kSeqs k s.val)

/-- The padding relation `PadOk short long result` describing
`pad_list`'s specified behaviour: walk the long list; at each position
either consume the next element of the short list (preserving relative
order, `consume`), or insert a synthetic empty-string brick while
keeping the short-list pointer unchanged, which is allowed only when
the short list's next element (if any) differs from the long list's
element at that position (`insert`); both lists must be exhausted at
the end. -/
inductive PadOk : List BrickDomain → List BrickDomain → List BrickDomain → Prop where
  | done : PadOk [] [] []
  | consume (s : BrickDomain) (ss ls r : List BrickDomain) (l : BrickDomain) :
      PadOk ss ls r → PadOk (s :: ss) (l :: ls) (s :: r)
  | insert (ss ls r : List BrickDomain) (l : BrickDomain) :
      (∀ s rest, ss = s :: rest → s ≠ l) →
      PadOk ss ls r → PadOk ss (l :: ls) (BrickDomain.getEmptyBrick :: r)

/-- The two-brick list `[{a}]^{1,2} · [{a}]^{0,1}` on which the
normalization loop oscillates forever. -/
def oscillatingBricks : List BrickDomain :=
  [.Value { sequence := OSet.ofList ["a".data], min := 1, max := 2 },
   .Value { sequence := OSet.ofList ["a".data], min := 0, max := 1 }]

/-- The three-brick list the first normalization step turns
`oscillatingBricks` into, and which rule 4 turns back. -/
def oscillatingBricksStep : List BrickDomain :=
  [.Value { sequence := OSet.ofList ["a".data], min := 1, max := 1 },
   .Value { sequence := OSet.ofList ["a".data], min := 0, max := 1 },
   .Value { sequence := OSet.ofList ["a".data], min := 0, max := 1 }]

instance decSubset {α : Type} [LinearOrder α] (a b : OSet α) :
    Decidable (OSet.Subset a b) := by
  unfold OSet.Subset
  infer_instance

theorem scanStep_osc_gfuel_zero :
    BricksDomain.scanStep 0 oscillatingBricks 0 oscillatingBricks = none := by
  decide

theorem scanStep_osc (g : Nat) :
    BricksDomain.scanStep (g + 1) oscillatingBricks 0 oscillatingBricks =
      some oscillatingBricksStep := rfl

theorem scanStep_osc_back (g : Nat) :
    BricksDomain.scanStep g oscillatingBricksStep 0 oscillatingBricksStep =
      some oscillatingBricks := rfl

/-- C1: the claim states that `BricksDomain::normalize` terminates on
every finite bricks list.  It does not: on the list
`[{a}]^{1,2} · [{a}]^{0,1}`, rule 5 splits the first brick into
`[{a}]^{1,1} · [{a}]^{0,1}` and rule 4 immediately fuses the two
`{a}`-bricks back, so the `while` loop oscillates between two lists and
never reaches an unchanged scan: for every iteration fuel `wfuel` and
every permutation-generator fuel `gfuel` the loop has not terminated. -/
theorem claim_C1_normalize_nontermination :
    ∀ wfuel gfuel : Nat,
      BricksDomain.normalize wfuel gfuel (.Value oscillatingBricks) = none := by
  have hne : oscillatingBricksStep ≠ oscillatingBricks := by decide
  have hne2 : oscillatingBricks ≠ oscillatingBricksStep := by decide
  have key : ∀ n g : Nat,
      BricksDomain.normalizeList n g oscillatingBricks = none ∧
      BricksDomain.normalizeList n g oscillatingBricksStep = none := by
    intro n
    induction n with
    | zero => intro g; exact ⟨rfl, rfl⟩
    | succ n ih =>
      intro g
      refine ⟨?_, ?_⟩
      · cases g with
        | zero =>
          simp only [BricksDomain.normalizeList, scanStep_osc_gfuel_zero]
        | succ g =>
          simp only [BricksDomain.normalizeList, scanStep_osc g, if_neg hne]
          exact (ih (g + 1)).2
      · simp only [BricksDomain.normalizeList, scanStep_osc_back g, if_neg hne2]
        exact (ih g).1
  intro w g
  show (BricksDomain.normalizeList w g oscillatingBricks).map _ = none
  rw [(key w g).1]
  rfl

/-- C2: the claim states that the rule-3 flattening of a brick with a
non-empty candidate set `S` and `min = max = k > 1` yields the set of
all `k`-element concatenations over `S` regardless of the character
lengths of the strings in `S`.  The recursion however stops as soon as
the *character length* of the first generated string reaches `k`, so on
the brick `[{mo,de}]^{2,2}` (the example strings of the source's own
doc comment for `BrickDomain`, under which this brick denotes
`{momo,mode,demo,dede}`) it returns the original two strings instead of
the four 2-element concatenations. -/
theorem claim_C2_flattening_wrong :
    ∀ g : Nat,
      Brick.transformBrickWithMinMaxEqual
          { sequence := OSet.ofList ["mo".data, "de".data], min := 2, max := 2 }
          (g + 1) 2 =
        some { sequence := OSet.ofList ["de".data, "mo".data], min := 1, max := 1 } ∧
      OSet.ofList ["de".data, "mo".data] ≠
        kElementConcats 2 (OSet.ofList ["mo".data, "de".data]) := by
  intro g
  exact ⟨rfl, by decide⟩

/-- C3: normalizing `[{a}]^{1,1} · [{a,b}]^{2,3} · [{a,b}]^{0,1}`
yields exactly `[{aaa,aab,aba,abb}]^{1,1} · [{a,b}]^{0,2}` (for any
fuel beyond the four loop iterations and two generator rounds that the
computation takes), and the rule-5 split of `[{a}]^{2,5}` yields
`[{aa}]^{1,1}` followed by `[{a}]^{0,3}`. -/
theorem claim_C3_normalize_example :
    (∀ i j : Nat,
      BricksDomain.normalize (i + 4) (j + 2)
          (.Value
            [.Value { sequence := OSet.ofList ["a".data], min := 1, max := 1 },
             .Value { sequence := OSet.ofList ["a".data, "b".data], min := 2, max := 3 },
             .Value { sequence := OSet.ofList ["a".data, "b".data], min := 0, max := 1 }]) =
        some (.Value
          [.Value { sequence := OSet.ofList ["aaa".data, "aab".data, "aba".data, "abb".data],
                    min := 1, max := 1 },
           .Value { sequence := OSet.ofList ["a".data, "b".data], min := 0, max := 2 }])) ∧
    (∀ j : Nat,
      Brick.breakSingleBrickIntoSimplerBricks
          { sequence := OSet.ofList ["a".data], min := 2, max := 5 } (j + 2) =
        some ({ sequence := OSet.ofList ["aa".data], min := 1, max := 1 },
              { sequence := OSet.ofList ["a".data], min := 0, max := 3 })) := by
  constructor
  · intro i j
    rfl
  · intro j
    rfl

/-- C7: merging two non-`Top` character-inclusion values intersects the
certain sets and unions the possible sets; `Top` absorbs; and the two
concrete examples `merge(ci("abc"), ci("def"))` and
`merge(ci("dabc"), ci("def"))` evaluate as stated. -/
theorem claim_C7_character_inclusion_merge :
    (∀ ca pa cb pb : CSet, ∃ c p : CSet,
      CharacterInclusionDomain.merge (.Value (ca, pa)) (.Value (cb, pb)) = .Value (c, p) ∧
      (∀ x : Char, x ∈ c.val ↔ x ∈ ca.val ∧ x ∈ cb.val) ∧
      (∀ x : Char, x ∈ p.val ↔ x ∈ pa.val ∨ x ∈ pb.val)) ∧
    (∀ x, CharacterInclusionDomain.merge .Top x = .Top) ∧
    (∀ x, CharacterInclusionDomain.merge x .Top = .Top) ∧
    CharacterInclusionDomain.merge (CharacterInclusionDomain.ci "abc".data)
        (CharacterInclusionDomain.ci "def".data) =
      .Value (OSet.ofList [], OSet.ofList "abcdef".data) ∧
    CharacterInclusionDomain.merge (CharacterInclusionDomain.ci "dabc".data)
        (CharacterInclusionDomain.ci "def".data) =
      .Value (OSet.ofList "d".data, OSet.ofList "abcdef".data) := by
  refine ⟨?_, ?_, ?_, by decide, by decide⟩
  · intro ca pa cb pb
    exact ⟨ca.inter cb, pa.union pb, rfl,
      fun x => OSet.mem_inter x ca cb, fun x => OSet.mem_union x pa pb⟩
  · intro x; cases x <;> rfl
  · intro x; cases x <;> rfl

/-- C8: the string-length merge returns equal interval values
unchanged, lets `Top` absorb while carrying that operand's byte width,
takes the interval hull of two distinct intervals, and `bytesize` is
the carried width of a `Top` and the upper bound of an interval. -/
theorem claim_C8_string_length :
    (∀ b : ByteSize × ByteSize,
      StringLengthDomain.merge (.Value b) (.Value b) = .Value b) ∧
    (∀ (w : ByteSize) (x : StringLengthDomain),
      StringLengthDomain.merge (.Top w) x = .Top w) ∧
    (∀ (b : ByteSize × ByteSize) (w : ByteSize),
      StringLengthDomain.merge (.Value b) (.Top w) = .Top w) ∧
    (∀ b1 b2 : ByteSize × ByteSize,
      StringLengthDomain.merge (.Value b1) (.Value b2) =
        .Value (Nat.min b1.1 b2.1, Nat.max b1.2 b2.2)) ∧
    (∀ w : ByteSize, StringLengthDomain.bytesize (.Top w) = w) ∧
    (∀ b : ByteSize × ByteSize, StringLengthDomain.bytesize (.Value b) = b.2) := by
  refine ⟨?_, ?_, ?_, ?_, fun w => rfl, fun b => rfl⟩
  · intro b
    show (if b = b then _ else _) = _
    rw [if_pos rfl]
  · intro w x; rfl
  · intro b w; rfl
  · intro b1 b2
    show (if b1 = b2 then StringLengthDomain.Value b1 else _) = _
    by_cases h : b1 = b2
    · subst h
      rw [if_pos rfl]
      have h1 : Nat.min b1.1 b1.1 = b1.1 := Nat.min_self _
      have h2 : Nat.max b1.2 b1.2 = b1.2 := Nat.max_self _
      rw [h1, h2]
    · rw [if_neg h]

/-- C10: merging two non-`Top` character-inclusion values each
satisfying `certain ⊆ possible` yields a value that again satisfies
`certain ⊆ possible`. -/
theorem claim_C10_invariant_preserved :
    ∀ ca pa cb pb : CSet, OSet.Subset ca pa → OSet.Subset cb pb →
      ∀ c p : CSet,
        CharacterInclusionDomain.merge (.Value (ca, pa)) (.Value (cb, pb)) = .Value (c, p) →
        OSet.Subset c p := by
  intro ca pa cb pb h1 h2 c p hm
  have hv : CharacterInclusionDomain.Value (ca.inter cb, pa.union pb) =
      CharacterInclusionDomain.Value (c, p) := hm
  injection hv with hpair
  have hc : ca.inter cb = c := congrArg Prod.fst hpair
  have hp : pa.union pb = p := congrArg Prod.snd hpair
  intro x hx
  rw [← hc, OSet.mem_inter] at hx
  rw [← hp, OSet.mem_union]
  exact Or.inl (h1 x hx.1)

theorem claim_C10_invariant_preserved_witness :
    OSet.Subset
      (OSet.inter (OSet.ofList "ab".data) (OSet.ofList "ad".data))
      (OSet.union (OSet.ofList "ab".data) (OSet.ofList "ad".data)) :=
  claim_C10_invariant_preserved
    (OSet.ofList "ab".data) (OSet.ofList "ab".data)
    (OSet.ofList "ad".data) (OSet.ofList "ad".data)
    (by decide) (by decide) _ _ rfl

theorem normalizeList_fixpoint {n g : Nat} {l y : List BrickDomain}
    (h : BricksDomain.normalizeList n g l = some y) :
    BricksDomain.scanStep g y 0 y = some y := by
  induction n generalizing l with
  | zero => exact absurd h (by simp [BricksDomain.normalizeList])
  | succ n ih =>
    have h1 : (match BricksDomain.scanStep g l 0 l with
        | none => none
        | some l2 => if l2 = l then some l else BricksDomain.normalizeList n g l2) =
        some y := h
    cases hs : BricksDomain.scanStep g l 0 l with
    | none => rw [hs] at h1; exact absurd h1 (by simp)
    | some l' =>
      rw [hs] at h1
      have h2 : (if l' = l then some l else BricksDomain.normalizeList n g l') =
          some y := h1
      by_cases he : l' = l
      · rw [if_pos he] at h2
        have hy : l = y := Option.some.inj h2
        subst hy
        rw [he] at hs
        exact hs
      · rw [if_neg he] at h2
        exact ih h2

/-- C9: normalization is idempotent where it is defined: whenever
`normalize` returns a value (for some iteration fuel), a second
normalization of that value applies no further rule and returns the
same value after its first loop iteration, with any fuel. -/
theorem claim_C9_normalize_idempotent :
    ∀ (n g : Nat) (x y : List BrickDomain),
      BricksDomain.normalize n g (.Value x) = some (.Value y) →
      ∀ m : Nat, BricksDomain.normalize (m + 1) g (.Value y) = some (.Value y) := by
  intro n g x y h m
  have hx : BricksDomain.normalizeList n g x = some y := by
    have h' : (BricksDomain.normalizeList n g x).map BricksDomain.Value =
        some (.Value y) := h
    cases hl : BricksDomain.normalizeList n g x with
    | none => rw [hl] at h'; exact absurd h' (by simp)
    | some z =>
      rw [hl] at h'
      have : BricksDomain.Value z = .Value y := Option.some.inj h'
      injection this with hz
      rw [hz]
  have hfix := normalizeList_fixpoint hx
  have hstep : BricksDomain.normalizeList (m + 1) g y = some y := by
    have h1 : BricksDomain.normalizeList (m + 1) g y =
        match BricksDomain.scanStep g y 0 y with
        | none => none
        | some l2 => if l2 = y then some y else BricksDomain.normalizeList m g l2 := rfl
    rw [h1, hfix]
    show (if y = y then some y else BricksDomain.normalizeList m g y) = some y
    rw [if_pos rfl]
  show (BricksDomain.normalizeList (m + 1) g y).map BricksDomain.Value = _
  rw [hstep]
  rfl

theorem claim_C9_normalize_idempotent_witness :
    BricksDomain.normalize 1 2
        (.Value
          [.Value { sequence := OSet.ofList ["aaa".data, "aab".data, "aba".data, "abb".data],
                    min := 1, max := 1 },
           .Value { sequence := OSet.ofList ["a".data, "b".data], min := 0, max := 2 }]) =
      some (.Value
        [.Value { sequence := OSet.ofList ["aaa".data, "aab".data, "aba".data, "abb".data],
                  min := 1, max := 1 },
         .Value { sequence := OSet.ofList ["a".data, "b".data], min := 0, max := 2 }]) :=
  claim_C9_normalize_idempotent 4 2
    [.Value { sequence := OSet.ofList ["a".data], min := 1, max := 1 },
     .Value { sequence := OSet.ofList ["a".data, "b".data], min := 2, max := 3 },
     .Value { sequence := OSet.ofList ["a".data, "b".data], min := 0, max := 1 }]
    _ (by decide) 0

theorem alookup_mem {K T : Type} [DecidableEq K] {k : K} {w : T} :
    ∀ {l : List (K × T)}, alookup k l = none ∨ ((k, alookup k l |>.getD w) ∈ l) := by
  intro l
  induction l with
  | nil => exact Or.inl rfl
  | cons p rest ih =>
    obtain ⟨k1, v⟩ := p
    by_cases hk : k1 = k
    · subst hk
      right
      simp [alookup]
    · rcases ih with h | h
      · left; simp [alookup, hk, h]
      · right
        simp only [alookup, if_neg hk]
        exact List.mem_cons_of_mem _ h

theorem alookup_mergeMaps {K T : Type} [DecidableEq K] (m : T → T → T)
    (a b : List (K × T)) (k : K) :
    alookup k (mergeMaps m a b) =
      (alookup k a).bind fun v => (alookup k b).map (m v) := by
  induction a with
  | nil => rfl
  | cons p rest ih =>
    obtain ⟨k1, v⟩ := p
    show alookup k (List.filterMap _ ((k1, v) :: rest)) = _
    rw [List.filterMap_cons]
    cases hb : alookup k1 b with
    | none =>
      simp only [hb, Option.map_none']
      by_cases hk : k1 = k
      · subst hk
        show alookup k1 (mergeMaps m rest b) = _
        rw [ih]
        simp only [alookup, if_pos rfl, hb]
        cases alookup k1 rest with
        | none => rfl
        | some z => rfl
      · show alookup k (mergeMaps m rest b) = _
        rw [ih]
        simp only [alookup, if_neg hk]
    | some w =>
      simp only [hb, Option.map_some']
      by_cases hk : k1 = k
      · subst hk
        show (if k1 = k1 then some (m v w) else _) = _
        rw [if_pos rfl]
        simp only [alookup, if_pos rfl, hb, Option.map_some']
        rfl
      · show (if k1 = k then some (m v w) else _) = _
        rw [if_neg hk]
        show alookup k (mergeMaps m rest b) = _
        rw [ih]
        simp only [alookup, if_neg hk]

theorem mem_mergeMaps {K T : Type} [DecidableEq K] (m : T → T → T)
    (a b : List (K × T)) (k : K) (v : T) :
    (k, v) ∈ mergeMaps m a b →
      (∃ v1, (k, v1) ∈ a) ∧ ∃ v2, (k, v2) ∈ b := by
  intro h
  simp only [mergeMaps, List.mem_filterMap] at h
  obtain ⟨⟨k1, v1⟩, hmem, hf⟩ := h
  cases hb : alookup k1 b with
  | none => rw [hb] at hf; exact absurd hf (by simp)
  | some w =>
    rw [hb] at hf
    simp only [Option.map_some'] at hf
    have hk : k1 = k := congrArg Prod.fst (Option.some.inj hf)
    subst hk
    refine ⟨⟨v1, hmem⟩, ⟨w, ?_⟩⟩
    rcases alookup_mem (k := k1) (w := w) (l := b) with h | h
    · rw [h] at hb; cases hb
    · rw [hb] at h
      exact h

/-- C6: for each of the two maps of the merged state, a key is looked
up successfully exactly when it is present in both input states, in
which case its value is `T::merge` of the two entries; any key present
in the merged maps is present in both inputs. -/
theorem claim_C6_state_merge :
    ∀ (T : Type) (m : T → T → T) (s1 s2 : State T),
      (∀ k : Variable,
        alookup k (State.merge m s1 s2).register =
          (alookup k s1.register).bind fun v => (alookup k s2.register).map (m v)) ∧
      (∀ (k : Variable) (v : T), (k, v) ∈ (State.merge m s1 s2).register →
        (∃ v1, (k, v1) ∈ s1.register) ∧ ∃ v2, (k, v2) ∈ s2.register) ∧
      (∀ k : Variable × Int,
        alookup k (State.merge m s1 s2).pointer =
          (alookup k s1.pointer).bind fun v => (alookup k s2.pointer).map (m v)) ∧
      (∀ (k : Variable × Int) (v : T), (k, v) ∈ (State.merge m s1 s2).pointer →
        (∃ v1, (k, v1) ∈ s1.pointer) ∧ ∃ v2, (k, v2) ∈ s2.pointer) := by
  intro T m s1 s2
  exact ⟨fun k => alookup_mergeMaps m s1.register s2.register k,
    fun k v => mem_mergeMaps m s1.register s2.register k v,
    fun k => alookup_mergeMaps m s1.pointer s2.pointer k,
    fun k v => mem_mergeMaps m s1.pointer s2.pointer k v⟩

theorem BrickDomain.merge_comm (a b : BrickDomain) : a.merge b = b.merge a := by
  cases a with
  | Top => cases b <;> rfl
  | Value x =>
    cases b with
    | Top => rfl
    | Value y =>
      simp only [BrickDomain.merge, BrickDomain.Value.injEq, Brick.mk.injEq]
      exact ⟨OSet.union_comm _ _, Nat.min_comm _ _, Nat.max_comm _ _⟩

theorem BrickDomain.merge_self (a : BrickDomain) : a.merge a = a := by
  cases a with
  | Top => rfl
  | Value x =>
    simp only [BrickDomain.merge, BrickDomain.Value.injEq]
    have h1 : Nat.min x.min x.min = x.min := Nat.min_self _
    have h2 : Nat.max x.max x.max = x.max := Nat.max_self _
    rw [OSet.union_self, h1, h2]

theorem zipWith_brick_merge_self :
    ∀ l : List BrickDomain, List.zipWith BrickDomain.merge l l = l
  | [] => rfl
  | x :: xs => by
    rw [List.zipWith_cons_cons, BrickDomain.merge_self, zipWith_brick_merge_self xs]

/-- C4 fails as stated: `StringLengthDomain::merge` of two `Top` values
keeps the byte width of the left operand, so it is not commutative on
`Top` values of different widths. -/
theorem claim_C4_counterexample :
    StringLengthDomain.merge (.Top 4) (.Top 8) ≠
      StringLengthDomain.merge (.Top 8) (.Top 4) := by
  decide

/-- C4 amended: merge is commutative, idempotent and `Top`-absorbing
for the bricks, brick and character-inclusion domains (for
`BricksDomain` up to the shared panic behaviour of the padding step),
and for `StringLengthDomain` merge is idempotent, `Top`-absorbing with
the result carrying the `Top` operand's width (the left one when both
are `Top`), and commutative whenever not both operands are `Top`
values of distinct byte widths. -/
theorem claim_C4_amended :
    ((∀ a b : CharacterInclusionDomain, a.merge b = b.merge a) ∧
     (∀ a : CharacterInclusionDomain, a.merge a = a) ∧
     (∀ a : CharacterInclusionDomain, a.merge .Top = .Top)) ∧
    ((∀ a b : BrickDomain, a.merge b = b.merge a) ∧
     (∀ a : BrickDomain, a.merge a = a) ∧
     (∀ a : BrickDomain, a.merge .Top = .Top)) ∧
    ((∀ a b : BricksDomain, a.merge b = b.merge a) ∧
     (∀ a : BricksDomain, a.merge a = some a) ∧
     (∀ a : BricksDomain, a.merge .Top = some .Top)) ∧
    ((∀ a b : StringLengthDomain,
        (a.isTop = true → b.isTop = true → a.bytesize = b.bytesize) →
        a.merge b = b.merge a) ∧
     (∀ a : StringLengthDomain, a.merge a = a) ∧
     (∀ (b : ByteSize × ByteSize) (w : ByteSize),
        StringLengthDomain.merge (.Value b) (.Top w) = .Top w) ∧
     (∀ w1 w2 : ByteSize, StringLengthDomain.merge (.Top w1) (.Top w2) = .Top w1)) := by
  refine ⟨⟨?_, ?_, ?_⟩, ⟨BrickDomain.merge_comm, BrickDomain.merge_self, ?_⟩,
    ⟨?_, ?_, ?_⟩, ⟨?_, ?_, fun b w => rfl, fun w1 w2 => rfl⟩⟩
  · intro a b
    cases a with
    | Top => cases b <;> rfl
    | Value x =>
      cases b with
      | Top => rfl
      | Value y =>
        obtain ⟨c1, p1⟩ := x
        obtain ⟨c2, p2⟩ := y
        simp only [CharacterInclusionDomain.merge, CharacterInclusionDomain.Value.injEq,
          Prod.mk.injEq]
        exact ⟨OSet.inter_comm _ _, OSet.union_comm _ _⟩
  · intro a
    cases a with
    | Top => rfl
    | Value x =>
      obtain ⟨c1, p1⟩ := x
      simp only [CharacterInclusionDomain.merge, CharacterInclusionDomain.Value.injEq,
        Prod.mk.injEq]
      exact ⟨OSet.inter_self _, OSet.union_self _⟩
  · intro a; cases a <;> rfl
  · intro a; cases a <;> rfl
  · intro a b
    cases a with
    | Top => cases b <;> rfl
    | Value la =>
      cases b with
      | Top => rfl
      | Value lb =>
        simp only [BricksDomain.merge]
        rcases Nat.lt_trichotomy la.length lb.length with h | h | h
        · rw [if_pos h, if_neg (Nat.lt_asymm h), if_pos h]
          have hf : (fun padded => BricksDomain.Value
                (List.zipWith BrickDomain.merge padded lb)) =
              fun padded => BricksDomain.Value
                (List.zipWith BrickDomain.merge lb padded) :=
            funext fun padded => by
              rw [List.zipWith_comm_of_comm _ BrickDomain.merge_comm]
          rw [hf]
        · have h1 : ¬la.length < lb.length := by omega
          have h2 : ¬lb.length < la.length := by omega
          rw [if_neg h1, if_neg h2, if_neg h2, if_neg h1,
            List.zipWith_comm_of_comm _ BrickDomain.merge_comm]
        · rw [if_neg (Nat.lt_asymm h), if_pos h, if_pos h]
          have hf : (fun padded => BricksDomain.Value
                (List.zipWith BrickDomain.merge la padded)) =
              fun padded => BricksDomain.Value
                (List.zipWith BrickDomain.merge padded la) :=
            funext fun padded => by
              rw [List.zipWith_comm_of_comm _ BrickDomain.merge_comm]
          rw [hf]
  · intro a
    cases a with
    | Top => rfl
    | Value l =>
      simp only [BricksDomain.merge, Nat.lt_irrefl, if_false]
      rw [zipWith_brick_merge_self]
  · intro a; cases a <;> rfl
  · intro a b h
    cases a with
    | Top w1 =>
      cases b with
      | Top w2 =>
        have hw : w1 = w2 := h rfl rfl
        rw [hw]
      | Value bb => rfl
    | Value ba =>
      cases b with
      | Top w2 => rfl
      | Value bb =>
        simp only [StringLengthDomain.merge]
        by_cases heq : ba = bb
        · rw [if_pos heq, if_pos heq.symm, heq]
        · rw [if_neg heq, if_neg (Ne.symm heq)]
          have hmin : Nat.min ba.1 bb.1 = Nat.min bb.1 ba.1 := Nat.min_comm _ _
          have hmax : Nat.max ba.2 bb.2 = Nat.max bb.2 ba.2 := Nat.max_comm _ _
          rw [hmin, hmax]
  · intro a
    cases a with
    | Top w => rfl
    | Value b =>
      show (if b = b then _ else _) = _
      rw [if_pos rfl]

theorem claim_C4_amended_witness :
    StringLengthDomain.merge (.Value (1, 2)) (.Top 8) =
      StringLengthDomain.merge (.Top 8) (.Value (1, 2)) :=
  claim_C4_amended.2.2.2.1 (.Value (1, 2)) (.Top 8) (by decide)

theorem PadOk_length {s l r : List BrickDomain} (h : PadOk s l r) :
    r.length = l.length := by
  induction h with
  | done => rfl
  | consume s ss ls r l _ ih => simp only [List.length_cons, ih]
  | insert ss ls r l _ _ ih => simp only [List.length_cons, ih]

theorem padLoop_spec (lenDiff : Nat) :
    ∀ (longl shortl : List BrickDomain) (added : Nat),
      (∀ b ∈ shortl, b.isTop = false) →
      (∀ b ∈ longl, b.isTop = false) →
      longl.length + added = shortl.length + lenDiff →
      added ≤ lenDiff →
      ∃ r, BricksDomain.padLoop lenDiff longl shortl added = some r ∧
        PadOk shortl longl r := by
  intro longl
  induction longl with
  | nil =>
    intro shortl added _ _ hbal hle
    have hs : shortl = [] := by
      cases shortl with
      | nil => rfl
      | cons s ss => simp only [List.length_nil, List.length_cons] at hbal; omega
    subst hs
    exact ⟨[], rfl, PadOk.done⟩
  | cons l ls ih =>
    intro shortl added hsT hlT hbal hle
    simp only [List.length_cons] at hbal
    by_cases hq : added ≥ lenDiff
    · cases shortl with
      | nil =>
        exfalso
        simp only [List.length_nil] at hbal
        omega
      | cons s ss =>
        obtain ⟨r, hr, hok⟩ := ih ss added
          (fun b hb => hsT b (List.mem_cons_of_mem _ hb))
          (fun b hb => hlT b (List.mem_cons_of_mem _ hb))
          (by simp only [List.length_cons] at hbal ⊢; omega) hle
        refine ⟨s :: r, ?_, PadOk.consume s ss ls r l hok⟩
        simp only [BricksDomain.padLoop, if_pos hq, hr, Option.map_some']
    · cases shortl with
      | nil =>
        obtain ⟨r, hr, hok⟩ := ih [] (added + 1)
          (fun b hb => absurd hb (List.not_mem_nil b))
          (fun b hb => hlT b (List.mem_cons_of_mem _ hb))
          (by simp only [List.length_nil] at hbal ⊢; omega) (by omega)
        refine ⟨BrickDomain.getEmptyBrick :: r, ?_,
          PadOk.insert [] ls r l (fun s rest hcon => by cases hcon) hok⟩
        simp only [BricksDomain.padLoop, if_neg hq, hr, Option.map_some']
      | cons s ss =>
        have hsv := hsT s (List.mem_cons_self s ss)
        have hlv := hlT l (List.mem_cons_self l ls)
        cases s with
        | Top => exact absurd hsv (by simp [BrickDomain.isTop])
        | Value sb =>
          cases l with
          | Top => exact absurd hlv (by simp [BrickDomain.isTop])
          | Value lb =>
            by_cases hd : sb = lb
            · obtain ⟨r, hr, hok⟩ := ih ss added
                (fun b hb => hsT b (List.mem_cons_of_mem _ hb))
                (fun b hb => hlT b (List.mem_cons_of_mem _ hb))
                (by simp only [List.length_cons] at hbal ⊢; omega) (by omega)
              refine ⟨BrickDomain.Value sb :: r, ?_,
                PadOk.consume (.Value sb) ss ls r (.Value lb) hok⟩
              simp only [BricksDomain.padLoop, if_neg hq, BrickDomain.unwrapValue, hr,
                Option.map_some', ne_eq, hd, not_true_eq_false, if_false]
            · obtain ⟨r, hr, hok⟩ := ih (BrickDomain.Value sb :: ss) (added + 1)
                hsT (fun b hb => hlT b (List.mem_cons_of_mem _ hb))
                (by simp only [List.length_cons] at hbal ⊢; omega) (by omega)
              have hcond : ∀ (s2 : BrickDomain) (rest : List BrickDomain),
                  BrickDomain.Value sb :: ss = s2 :: rest → s2 ≠ BrickDomain.Value lb := by
                intro s2 rest hcon heq
                have hs2 : s2 = BrickDomain.Value sb := (List.cons.inj hcon).1.symm
                rw [hs2] at heq
                exact hd (BrickDomain.Value.inj heq)
              refine ⟨BrickDomain.getEmptyBrick :: r, ?_,
                PadOk.insert (BrickDomain.Value sb :: ss) ls r (.Value lb) hcond hok⟩
              simp only [BricksDomain.padLoop, if_neg hq, BrickDomain.unwrapValue, hr,
                Option.map_some', ne_eq, hd, not_false_eq_true, if_true]

/-- C5: padding a shorter brick list against a longer one (both lists
free of `Top` bricks, as `pad_list` unwraps the bricks it compares)
produces a list of the longer list's length obtained from the shorter
list by inserting synthetic empty-string bricks, never reordering the
shorter list's elements, keeping the short-list pointer unchanged on
an insertion, and inserting only where the short list's next element
(if any) differs from the long list's element at that position — the
`PadOk` relation. -/
theorem claim_C5_pad_list :
    ∀ short_list long_list : List BrickDomain,
      (∀ b ∈ short_list, b.isTop = false) →
      (∀ b ∈ long_list, b.isTop = false) →
      short_list.length < long_list.length →
      ∃ r, BricksDomain.padList short_list long_list = some r ∧
        r.length = long_list.length ∧ PadOk short_list long_list r := by
  intro s l hs hl hlen
  obtain ⟨r, hr, hok⟩ := padLoop_spec (l.length - s.length) l s 0 hs hl (by omega) (by omega)
  refine ⟨r, ?_, PadOk_length hok, hok⟩
  show (if s.length ≤ l.length then _ else _) = _
  rw [if_pos (Nat.le_of_lt hlen)]
  exact hr

theorem claim_C5_pad_list_witness :
    BricksDomain.padList
        [.Value { sequence := OSet.ofList ["a".data], min := 1, max := 1 }]
        [.Value { sequence := OSet.ofList ["b".data], min := 1, max := 1 },
         .Value { sequence := OSet.ofList ["a".data], min := 1, max := 1 }] =
      some [BrickDomain.getEmptyBrick,
        .Value { sequence := OSet.ofList ["a".data], min := 1, max := 1 }] ∧
    PadOk
      [.Value { sequence := OSet.ofList ["a".data], min := 1, max := 1 }]
      [.Value { sequence := OSet.ofList ["b".data], min := 1, max := 1 },
       .Value { sequence := OSet.ofList ["a".data], min := 1, max := 1 }]
      [BrickDomain.getEmptyBrick,
       .Value { sequence := OSet.ofList ["a".data], min := 1, max := 1 }] := by
  obtain ⟨r, hr, _, hok⟩ := claim_C5_pad_list
    [.Value { sequence := OSet.ofList ["a".data], min := 1, max := 1 }]
    [.Value { sequence := OSet.ofList ["b".data], min := 1, max := 1 },
     .Value { sequence := OSet.ofList ["a".data], min := 1, max := 1 }]
    (by decide) (by decide) (by decide)
  have hc : BricksDomain.padList
      [.Value { sequence := OSet.ofList ["a".data], min := 1, max := 1 }]
      [.Value { sequence := OSet.ofList ["b".data], min := 1, max := 1 },
       .Value { sequence := OSet.ofList ["a".data], min := 1, max := 1 }] =
      some [BrickDomain.getEmptyBrick,
        .Value { sequence := OSet.ofList ["a".data], min := 1, max := 1 }] := by
    decide
  have hre := Option.some.inj (hr.symm.trans hc)
  exact ⟨hc, hre ▸ hok⟩

end CweChecker
